import Mathlib

/-!
Verification of the reference parser and bibliography renderer in
`bibliography/parse_refs.py`.

The Python code is shallowly embedded over `List Char`.  Regular-expression
searches are modelled as leftmost-match scanners with greedy whitespace runs
(`\s+` becomes `takeWhile pySpace`), mirroring Python `re` semantics on the
patterns actually used (all of which are backtracking-free because whitespace,
digits and the literal letters involved are pairwise disjoint character
classes).
-/

namespace BibRefs

/-- Python `\s` / `str.strip` whitespace (ASCII part). -/
def pySpace (c : Char) : Bool :=
  c = ' ' || c = '\t' || c = '\n' || c = '\r' || c = '\x0b' || c = '\x0c'

/-- Python `\d` (ASCII part). -/
def pyDigit (c : Char) : Bool :=
  decide ('0' ≤ c) && decide (c ≤ '9')

/-- Numeric value of a digit character. -/
def digitVal (c : Char) : Nat := c.toNat - 48

/-- Value of a four-digit year, as computed by `int(year_match.group(1))`. -/
def fourDigitVal (d1 d2 d3 d4 : Char) : Nat :=
  1000 * digitVal d1 + 100 * digitVal d2 + 10 * digitVal d3 + digitVal d4

/-- Length of the leading whitespace run (the greedy extent of `\s+`). -/
def countWs (l : List Char) : Nat := (l.takeWhile pySpace).length

/-- Drop the leading whitespace run. -/
def skipWs (l : List Char) : List Char := l.dropWhile pySpace

/-- Strip the trailing characters satisfying `bad` (Python `rstrip`). -/
def rstripP (bad : Char → Bool) (t : List Char) : List Char :=
  (t.reverse.dropWhile bad).reverse

/-- Python `str.strip()`: drop leading and trailing whitespace. -/
def pyStrip (l : List Char) : List Char :=
  rstripP pySpace (l.dropWhile pySpace)

/-- Characters stripped from the end of a last-name token (`rstrip('.,')`). -/
def dotComma (c : Char) : Bool := c == '.' || c == ','

/-- Try to match `\.\s+(\d{4})\.\s+` at the head of `l`
(line 21, `re.search(r'\.\s+(\d{4})\.\s+', ref_text)`).
Returns the year value of the group and the matched length. -/
def matchYearDelim (l : List Char) : Option (Nat × Nat) :=
  match l with
  | [] => none
  | c0 :: rest =>
    if c0 = '.' ∧ 0 < countWs rest then
      match skipWs rest with
      | d1 :: d2 :: d3 :: d4 :: c5 :: r2 =>
        if (pyDigit d1 && pyDigit d2 && pyDigit d3 && pyDigit d4) = true
            ∧ c5 = '.' ∧ 0 < countWs r2 then
          some (fourDigitVal d1 d2 d3 d4, 1 + countWs rest + 5 + countWs r2)
        else none
      | _ => none
    else none

/-- Leftmost match of the year delimiter: start position, year, match length. -/
def searchYear : List Char → Option (Nat × Nat × Nat)
  | [] => none
  | c :: rest =>
    match matchYearDelim (c :: rest) with
    | some pr => some (0, pr.1, pr.2)
    | none =>
      match searchYear rest with
      | some r => some (r.1 + 1, r.2.1, r.2.2)
      | none => none

/-- Try to match `\.\s+In\s+` at the head of `l`
(line 54, `re.search(r'\.\s+In\s+', after_year)`). -/
def matchDotIn (l : List Char) : Bool :=
  match l with
  | [] => false
  | c0 :: rest =>
    if c0 = '.' ∧ 0 < countWs rest then
      match skipWs rest with
      | 'I' :: 'n' :: r => decide (0 < countWs r)
      | _ => false
    else false

/-- Leftmost start position of `\.\s+In\s+`. -/
def searchDotIn : List Char → Option Nat
  | [] => none
  | c :: rest =>
    if matchDotIn (c :: rest) = true then some 0
    else
      match searchDotIn rest with
      | some n => some (n + 1)
      | none => none

/-- `re.split(r'\.\s+', s, maxsplit=1)` when a separator exists: the part
before the leftmost `\.\s+` and the part after its greedy whitespace run. -/
def splitDotWs : List Char → Option (List Char × List Char)
  | [] => none
  | c :: rest =>
    if c = '.' ∧ 0 < countWs rest then some ([], skipWs rest)
    else
      match splitDotWs rest with
      | some pr => some (c :: pr.1, pr.2)
      | none => none

/-- Try to match `\s+and\s+` at the head of `l`. -/
def matchAndSep (l : List Char) : Bool :=
  decide (0 < countWs l) &&
    (match skipWs l with
     | 'a' :: 'n' :: 'd' :: r => decide (0 < countWs r)
     | _ => false)

/-- The part of the author string before the leftmost match of `,|\s+and\s+`
(line 36, `re.split(r',|\s+and\s+', authors_str)[0]`). -/
def authorSegmentAux : List Char → List Char
  | [] => []
  | c :: rest =>
    if c = ',' then []
    else if matchAndSep (c :: rest) = true then []
    else c :: authorSegmentAux rest

/-- Accumulator loop for whitespace tokenization. -/
def tokensAux : List Char → List Char → List (List Char)
  | [], acc => if acc.isEmpty then [] else [acc.reverse]
  | c :: rest, acc =>
    if pySpace c then
      if acc.isEmpty then tokensAux rest [] else acc.reverse :: tokensAux rest []
    else tokensAux rest (c :: acc)

/-- Python `str.split()`: maximal non-whitespace runs. -/
def pyTokens (l : List Char) : List (List Char) := tokensAux l []

/-- Last-name extraction from the first author segment (lines 39-45). -/
def lastNameOf (seg : List Char) : List Char :=
  let parts := pyTokens seg
  if 2 ≤ parts.length then rstripP dotComma (parts.getLastD [])
  else if parts ≠ [] then rstripP dotComma (parts.headD [])
  else "Unknown".data

/-- The title clean-up of lines 72-73:
`if title and not title.endswith('.'): title = title.rstrip('.')`. -/
def cleanTitle (t : List Char) : List Char :=
  if t ≠ [] ∧ ¬ t.getLast? = some '.' then rstripP (fun c => c == '.') t else t

/-- The structured result of parsing one reference block, in the order of the
returned Python tuple `(first_author_last, year, authors_str, title, venue)`. -/
structure ParsedReference where
  firstAuthorLastName : String
  year : Nat
  authorsText : String
  title : String
  venue : String
deriving Repr, DecidableEq

/-- The title/venue split of lines 54-69, applied to the stripped remainder
after the year delimiter. -/
def titleVenue (afterYear : List Char) : List Char × List Char :=
  match searchDotIn afterYear with
  | some q => (pyStrip (afterYear.take q), pyStrip (afterYear.drop (q + 1)))
  | none =>
    match splitDotWs afterYear with
    | some pr => (pyStrip pr.1, pyStrip pr.2)
    | none => (pyStrip afterYear, ([] : List Char))

/-- `parse_reference` (lines 10-75), return value only. -/
def parseRef (l0 : List Char) : Option ParsedReference :=
  let l := pyStrip l0
  if l = [] then none
  else
    match searchYear l with
    | none => none
    | some slen =>
      let authorsStr := pyStrip (l.take slen.1)
      let afterYear := pyStrip (l.drop (slen.1 + slen.2.2))
      let tv := titleVenue afterYear
      some ⟨String.mk (lastNameOf (pyStrip (authorSegmentAux authorsStr))), slen.2.1,
            String.mk authorsStr, String.mk (cleanTitle tv.1), String.mk tv.2⟩

/-- `parse_reference` on a Python string. -/
def parse_reference (b : String) : Option ParsedReference := parseRef b.data

/-- The warning printed at line 24 for a block without a year pattern. -/
def warnNoYear (l : List Char) : String :=
  "Warning: Could not find year in: " ++ String.mk (l.take 100) ++ "..."

/-- `parse_reference` together with the warnings it prints. -/
def parseRefLog (l0 : List Char) : Option ParsedReference × List String :=
  let l := pyStrip l0
  if l = [] then (none, [])
  else
    match searchYear l with
    | none => (none, [warnNoYear l])
    | some _ => (parseRef l0, [])

/-- `parse_reference` with warnings, on a Python string. -/
def parse_reference_log (b : String) : Option ParsedReference × List String :=
  parseRefLog b.data

/-- The parsing loop of `main` (lines 86-90): collected entries and the
warnings printed along the way. -/
def processRefs : List String → List ParsedReference × List String
  | [] => ([], [])
  | b :: rest =>
    let pr := parse_reference_log b
    let acc := processRefs rest
    match pr.1 with
    | some p => (p :: acc.1, pr.2 ++ acc.2)
    | none => (acc.1, pr.2 ++ acc.2)

/-- The sort key component `x[0].lower()` of line 93 (ASCII case folding). -/
def lowerName (p : ParsedReference) : List Char :=
  p.firstAuthorLastName.data.map Char.toLower

/-- Strict lexicographic order on char lists, as Python compares `str`. -/
def listLtCh : List Char → List Char → Bool
  | [], [] => false
  | [], _ :: _ => true
  | _ :: _, [] => false
  | a :: as, b :: bs =>
    if a < b then true else if a = b then listLtCh as bs else false

/-- `(x[0].lower(), x[1]) <= (y[0].lower(), y[1])` under Python tuple order. -/
def refLe (a b : ParsedReference) : Bool :=
  if listLtCh (lowerName a) (lowerName b) = true then true
  else if lowerName a = lowerName b then decide (a.year ≤ b.year)
  else false

/-- `parsed_refs.sort(key=lambda x: (x[0].lower(), x[1]))` (line 93):
Python `list.sort` is a stable sort by the key, modelled by `mergeSort`. -/
def sortRefs (l : List ParsedReference) : List ParsedReference :=
  l.mergeSort refLe

/-- A well-formed block: an author part `A`, the year delimiter `. dddd. `,
and a remainder `R`. -/
def wfBlock (A : List Char) (d1 d2 d3 d4 : Char) (R : List Char) : List Char :=
  A ++ '.' :: ' ' :: d1 :: d2 :: d3 :: d4 :: '.' :: ' ' :: R

/-- Does the list start with `and` followed by a whitespace character? -/
def isAndWs : List Char → Bool
  | 'a' :: 'n' :: 'd' :: d :: _ => pySpace d
  | _ => false

/-- Does the word `and` occur anywhere with whitespace immediately before and
after it?  (The condition under which `\s+and\s+` can match.) -/
def hasWsAndWs : List Char → Bool
  | [] => false
  | c :: rest => (pySpace c && isAndWs rest) || hasWsAndWs rest

/-! ### Facts about characters -/

lemma pyDigit_ge {c : Char} (h : pyDigit c = true) : '0' ≤ c ∧ c ≤ '9' := by
  unfold pyDigit at h
  simpa using h

lemma pyDigit_not_space {c : Char} (h : pyDigit c = true) : pySpace c = false := by
  obtain ⟨h1, -⟩ := pyDigit_ge h
  unfold pySpace
  simp only [Bool.or_eq_false_iff, decide_eq_false_iff_not]
  and_intros <;> rintro rfl <;> exact absurd h1 (by decide)

lemma digitVal_le_nine {c : Char} (h : pyDigit c = true) : digitVal c ≤ 9 := by
  obtain ⟨-, h2⟩ := pyDigit_ge h
  have h3 : c.toNat ≤ 57 := by
    have hv : c.val ≤ ('9' : Char).val := h2
    have hb := (UInt32.le_def).mp hv
    have hn := BitVec.le_def.mp hb
    simpa [Char.toNat, UInt32.toNat] using hn
  unfold digitVal
  omega

lemma fourDigitVal_le {d1 d2 d3 d4 : Char}
    (h : (pyDigit d1 && pyDigit d2 && pyDigit d3 && pyDigit d4) = true) :
    fourDigitVal d1 d2 d3 d4 ≤ 9999 := by
  simp only [Bool.and_eq_true] at h
  obtain ⟨⟨⟨h1, h2⟩, h3⟩, h4⟩ := h
  have b1 := digitVal_le_nine h1
  have b2 := digitVal_le_nine h2
  have b3 := digitVal_le_nine h3
  have b4 := digitVal_le_nine h4
  unfold fourDigitVal
  omega

/-! ### Facts about whitespace runs and stripping -/

lemma dropWhile_idem (p : Char → Bool) :
    ∀ l : List Char, (l.dropWhile p).dropWhile p = l.dropWhile p
  | [] => rfl
  | c :: rest => by
    by_cases h : p c = true
    · simp [List.dropWhile_cons, h, dropWhile_idem p rest]
    · simp [List.dropWhile_cons, h]

lemma drop_countWs (l : List Char) : l.drop (countWs l) = skipWs l := by
  have h2 : (l.takeWhile pySpace ++ l.dropWhile pySpace).drop
      ((l.takeWhile pySpace).length) = l.dropWhile pySpace := List.drop_left _ _
  rwa [List.takeWhile_append_dropWhile] at h2

lemma pyStrip_skipWs (l : List Char) : pyStrip (skipWs l) = pyStrip l := by
  unfold pyStrip skipWs
  rw [dropWhile_idem]

lemma rstripP_append_eq (bad : Char → Bool) (m : List Char) :
    rstripP bad m ++ (m.reverse.takeWhile bad).reverse = m := by
  unfold rstripP
  rw [← List.reverse_append, List.takeWhile_append_dropWhile, List.reverse_reverse]

lemma head?_rstripP (bad : Char → Bool) (m : List Char) (h : rstripP bad m ≠ []) :
    (rstripP bad m).head? = m.head? := by
  conv_rhs => rw [← rstripP_append_eq bad m]
  cases hr : rstripP bad m with
  | nil => exact absurd hr h
  | cons c t => simp

lemma rstripP_cons_ne_nil {bad : Char → Bool} {c : Char} (xs : List Char)
    (h : bad c = false) : rstripP bad (c :: xs) ≠ [] := by
  intro he
  unfold rstripP at he
  rw [List.reverse_eq_nil_iff] at he
  have hc := List.dropWhile_eq_nil_iff.mp he c (by simp)
  rw [h] at hc
  exact Bool.false_ne_true hc

lemma pyStrip_cons_ne_nil {c : Char} (xs : List Char) (h : pySpace c = false) :
    pyStrip (c :: xs) ≠ [] := by
  unfold pyStrip
  rw [List.dropWhile_cons_of_neg (by simp [h])]
  exact rstripP_cons_ne_nil xs h

lemma pyStrip_head_not_space {l : List Char} {c : Char}
    (h : (pyStrip l).head? = some c) : pySpace c = false := by
  have hne : pyStrip l ≠ [] := by
    intro he
    rw [he] at h
    simp at h
  unfold pyStrip at h hne
  rw [head?_rstripP _ _ hne] at h
  have hm := List.head?_dropWhile_not pySpace l
  rw [h] at hm
  exact hm

/-! ### The title clean-up is a no-op -/

lemma cleanTitle_eq (t : List Char) : cleanTitle t = t := by
  unfold cleanTitle
  split
  · rename_i h
    obtain ⟨h1, h2⟩ := h
    cases ht : t.reverse with
    | nil =>
      rw [List.reverse_eq_nil_iff] at ht
      exact absurd ht h1
    | cons c r =>
      have hc : t.getLast? = some c := by
        rw [← List.head?_reverse, ht]
        rfl
      have hcne : ¬ (c == '.') = true := by
        simp only [beq_iff_eq]
        intro hh
        exact h2 (by rw [hc, hh])
      unfold rstripP
      rw [ht, List.dropWhile_cons_of_neg (p := fun x => x == '.') (a := c) hcne,
        ← ht, List.reverse_reverse]
  · rfl

/-! ### The year-delimiter search -/

lemma matchYearDelim_nil : matchYearDelim [] = none := rfl

lemma searchYear_eq_of_first (l : List Char) (s : Nat) (pr : Nat × Nat)
    (hs : matchYearDelim (l.drop s) = some pr)
    (hb : ∀ n, n < s → matchYearDelim (l.drop n) = none) :
    searchYear l = some (s, pr.1, pr.2) := by
  induction s generalizing l with
  | zero =>
    rw [List.drop_zero] at hs
    cases l with
    | nil => rw [matchYearDelim_nil] at hs; exact absurd hs (by simp)
    | cons c rest =>
      unfold searchYear
      rw [hs]
  | succ s ih =>
    have h0 := hb 0 (Nat.succ_pos s)
    rw [List.drop_zero] at h0
    cases l with
    | nil => rw [List.drop_nil, matchYearDelim_nil] at hs; exact absurd hs (by simp)
    | cons c rest =>
      have hs' : matchYearDelim (rest.drop s) = some pr := by
        rwa [List.drop_succ_cons] at hs
      have hb' : ∀ n, n < s → matchYearDelim (rest.drop n) = none := by
        intro n hn
        have := hb (n + 1) (by omega)
        rwa [List.drop_succ_cons] at this
      unfold searchYear
      rw [h0, ih rest hs' hb']

lemma matchYearDelim_year_le {l : List Char} {pr : Nat × Nat}
    (h : matchYearDelim l = some pr) : pr.1 ≤ 9999 := by
  unfold matchYearDelim at h
  split at h
  · exact absurd h (by simp)
  · split at h
    · split at h
      · split at h
        · rename_i hcond
          obtain ⟨hd, -, -⟩ := hcond
          cases h
          exact fourDigitVal_le hd
        · exact absurd h (by simp)
      · exact absurd h (by simp)
    · exact absurd h (by simp)

lemma searchYear_year_le {l : List Char} {r : Nat × Nat × Nat}
    (h : searchYear l = some r) : r.2.1 ≤ 9999 := by
  induction l generalizing r with
  | nil => exact absurd h (by simp [searchYear])
  | cons c rest ih =>
    unfold searchYear at h
    split at h
    · rename_i pr hpr
      cases h
      exact matchYearDelim_year_le hpr
    · split at h
      · rename_i r' hr'
        cases h
        simpa using ih hr'
      · exact absurd h (by simp)

lemma matchYearDelim_eval (d1 d2 d3 d4 : Char) (R : List Char)
    (hd : (pyDigit d1 && pyDigit d2 && pyDigit d3 && pyDigit d4) = true) :
    matchYearDelim ('.' :: ' ' :: d1 :: d2 :: d3 :: d4 :: '.' :: ' ' :: R)
      = some (fourDigitVal d1 d2 d3 d4, 8 + countWs R) := by
  have hd1 : pyDigit d1 = true := by
    simp only [Bool.and_eq_true] at hd
    exact hd.1.1.1
  have hns : ¬ pySpace d1 = true := by
    simp [pyDigit_not_space hd1]
  have hw1 : countWs (' ' :: d1 :: d2 :: d3 :: d4 :: '.' :: ' ' :: R) = 1 := by
    unfold countWs
    rw [List.takeWhile_cons_of_pos (p := pySpace) (by decide),
      List.takeWhile_cons_of_neg hns]
    rfl
  have hskip : skipWs (' ' :: d1 :: d2 :: d3 :: d4 :: '.' :: ' ' :: R)
      = d1 :: d2 :: d3 :: d4 :: '.' :: ' ' :: R := by
    unfold skipWs
    rw [List.dropWhile_cons_of_pos (p := pySpace) (by decide),
      List.dropWhile_cons_of_neg hns]
  have hw2 : countWs (' ' :: R) = 1 + countWs R := by
    unfold countWs
    rw [List.takeWhile_cons_of_pos (p := pySpace) (by decide)]
    simp [Nat.add_comm]
  show (if ('.' : Char) = '.' ∧ 0 < countWs (' ' :: d1 :: d2 :: d3 :: d4 :: '.' :: ' ' :: R) then
      match skipWs (' ' :: d1 :: d2 :: d3 :: d4 :: '.' :: ' ' :: R) with
      | e1 :: e2 :: e3 :: e4 :: c5 :: r2 =>
        if (pyDigit e1 && pyDigit e2 && pyDigit e3 && pyDigit e4) = true ∧ c5 = '.' ∧ 0 < countWs r2 then
          some (fourDigitVal e1 e2 e3 e4,
            1 + countWs (' ' :: d1 :: d2 :: d3 :: d4 :: '.' :: ' ' :: R) + 5 + countWs r2)
        else none
      | _ => none
    else none) = some (fourDigitVal d1 d2 d3 d4, 8 + countWs R)
  rw [hw1, hskip]
  rw [if_pos ⟨rfl, by omega⟩]
  show (if (pyDigit d1 && pyDigit d2 && pyDigit d3 && pyDigit d4) = true
        ∧ ('.' : Char) = '.' ∧ 0 < countWs (' ' :: R) then
      some (fourDigitVal d1 d2 d3 d4, 1 + 1 + 5 + countWs (' ' :: R))
    else none) = some (fourDigitVal d1 d2 d3 d4, 8 + countWs R)
  rw [hw2, if_pos ⟨hd, rfl, by omega⟩]
  have harith : 1 + 1 + 5 + (1 + countWs R) = 8 + countWs R := by omega
  rw [harith]

/-! ### Title/venue split positions -/

lemma matchDotIn_cons_ne {c : Char} (rest : List Char) (hc : c ≠ '.') :
    matchDotIn (c :: rest) = false := by
  show (if c = '.' ∧ 0 < countWs rest then
      match skipWs rest with
      | 'I' :: 'n' :: r => decide (0 < countWs r)
      | _ => false
    else false) = false
  rw [if_neg (fun hh => hc hh.1)]

lemma searchDotIn_zero {c : Char} {rest : List Char}
    (h : searchDotIn (c :: rest) = some 0) : c = '.' := by
  by_contra hc
  have hm := matchDotIn_cons_ne rest hc
  have hred : searchDotIn (c :: rest)
      = match searchDotIn rest with
        | some n => some (n + 1)
        | none => none := by
    show (if matchDotIn (c :: rest) = true then some 0
      else match searchDotIn rest with
        | some n => some (n + 1)
        | none => none)
      = match searchDotIn rest with
        | some n => some (n + 1)
        | none => none
    rw [hm]
    simp
  rw [hred] at h
  cases hs : searchDotIn rest with
  | none => rw [hs] at h; exact absurd h (by simp)
  | some n =>
    rw [hs] at h
    simp at h

lemma splitDotWs_cons_ne {c : Char} {rest : List Char} {pr : List Char × List Char}
    (hc : c ≠ '.') (h : splitDotWs (c :: rest) = some pr) :
    ∃ pr', splitDotWs rest = some pr' ∧ pr = (c :: pr'.1, pr'.2) := by
  have h' : (match splitDotWs rest with
      | some q => some (c :: q.1, q.2)
      | none => none) = some pr := by
    rw [← h]
    show (match splitDotWs rest with
        | some q => some (c :: q.1, q.2)
        | none => none)
      = (if c = '.' ∧ 0 < countWs rest then some (([] : List Char), skipWs rest)
        else match splitDotWs rest with
          | some q => some (c :: q.1, q.2)
          | none => none)
    rw [if_neg (fun hh => hc hh.1)]
  cases hs : splitDotWs rest with
  | none => rw [hs] at h'; exact absurd h' (by simp)
  | some q =>
    rw [hs] at h'
    refine ⟨q, rfl, ?_⟩
    cases h'
    rfl

lemma String_mk_ne_empty {l : List Char} (h : l ≠ []) : String.mk l ≠ "" := by
  intro he
  apply h
  have hd : (String.mk l).data = ("" : String).data := by rw [he]
  simpa using hd

lemma parseRef_eq_of_search {l0 : List Char} {s y len : Nat}
    (hstrip : pyStrip l0 = l0) (hne : l0 ≠ [])
    (hsy : searchYear l0 = some (s, y, len)) :
    parseRef l0 = some
      ⟨String.mk (lastNameOf (pyStrip (authorSegmentAux (pyStrip (l0.take s))))), y,
       String.mk (pyStrip (l0.take s)),
       String.mk (cleanTitle (titleVenue (pyStrip (l0.drop (s + len)))).1),
       String.mk (titleVenue (pyStrip (l0.drop (s + len)))).2⟩ := by
  simp only [parseRef]
  rw [hstrip, if_neg hne, hsy]

lemma titleVenue_fst_ne_nil {c0 : Char} {Rs' : List Char}
    (hws : pySpace c0 = false) (hdot : c0 ≠ '.') :
    (titleVenue (c0 :: Rs')).1 ≠ [] := by
  unfold titleVenue
  cases hq : searchDotIn (c0 :: Rs') with
  | some q =>
    cases q with
    | zero => exact absurd (searchDotIn_zero hq) hdot
    | succ n =>
      show pyStrip ((c0 :: Rs').take (n + 1)) ≠ []
      rw [List.take_succ_cons]
      exact pyStrip_cons_ne_nil _ hws
  | none =>
    cases hs : splitDotWs (c0 :: Rs') with
    | some pr =>
      obtain ⟨pr', -, hpr⟩ := splitDotWs_cons_ne hdot hs
      subst hpr
      show pyStrip (c0 :: pr'.1) ≠ []
      exact pyStrip_cons_ne_nil _ hws
    | none =>
      show pyStrip (c0 :: Rs') ≠ []
      exact pyStrip_cons_ne_nil _ hws

/-- C4: for every well-formed block `<authors>. <4-digit year>. <remainder>`
in which the year delimiter occurs exactly once (it matches at the boundary
position and nowhere else) and whose trimmed remainder is non-empty and does
not begin with a period, parsing returns the original four-digit year exactly
and a non-empty title. -/
theorem wellformed_recovers_year_and_title
    (A R : List Char) (d1 d2 d3 d4 : Char)
    (hd : (pyDigit d1 && pyDigit d2 && pyDigit d3 && pyDigit d4) = true)
    (hstrip : pyStrip (wfBlock A d1 d2 d3 d4 R) = wfBlock A d1 d2 d3 d4 R)
    (huniq : ∀ n, n < (wfBlock A d1 d2 d3 d4 R).length → n ≠ A.length →
        matchYearDelim ((wfBlock A d1 d2 d3 d4 R).drop n) = none)
    (hR1 : pyStrip R ≠ []) (hR2 : (pyStrip R).head? ≠ some '.') :
    ∃ p, parse_reference (String.mk (wfBlock A d1 d2 d3 d4 R)) = some p ∧
      p.year = fourDigitVal d1 d2 d3 d4 ∧ p.title ≠ "" := by
  have hlen : A.length < (wfBlock A d1 d2 d3 d4 R).length := by
    unfold wfBlock
    rw [List.length_append]
    simp
  have hne : wfBlock A d1 d2 d3 d4 R ≠ [] :=
    List.ne_nil_of_length_pos (Nat.lt_of_le_of_lt (Nat.zero_le _) hlen)
  have hv : matchYearDelim ((wfBlock A d1 d2 d3 d4 R).drop A.length)
      = some (fourDigitVal d1 d2 d3 d4, 8 + countWs R) := by
    unfold wfBlock
    rw [List.drop_left]
    exact matchYearDelim_eval d1 d2 d3 d4 R hd
  have hsy : searchYear (wfBlock A d1 d2 d3 d4 R)
      = some (A.length, fourDigitVal d1 d2 d3 d4, 8 + countWs R) := by
    have hb : ∀ n, n < A.length →
        matchYearDelim ((wfBlock A d1 d2 d3 d4 R).drop n) = none := by
      intro n hn
      exact huniq n (hn.trans hlen) (Nat.ne_of_lt hn)
    exact searchYear_eq_of_first _ _ _ hv hb
  have hafter : pyStrip ((wfBlock A d1 d2 d3 d4 R).drop (A.length + (8 + countWs R)))
      = pyStrip R := by
    have h1 : (wfBlock A d1 d2 d3 d4 R).drop (A.length + (8 + countWs R))
        = R.drop (countWs R) := by
      unfold wfBlock
      rw [← List.drop_drop, List.drop_left, ← List.drop_drop]
      rfl
    rw [h1, drop_countWs, pyStrip_skipWs]
  obtain ⟨c0, Rs', hRs⟩ : ∃ c0 Rs', pyStrip R = c0 :: Rs' := by
    cases hcase : pyStrip R with
    | nil => exact absurd hcase hR1
    | cons a b => exact ⟨a, b, rfl⟩
  have hc0ws : pySpace c0 = false := by
    apply pyStrip_head_not_space (l := R)
    rw [hRs]
    rfl
  have hc0dot : c0 ≠ '.' := by
    intro he
    apply hR2
    rw [hRs, he]
    rfl
  have hrec := parseRef_eq_of_search hstrip hne hsy
  refine ⟨_, hrec, rfl, ?_⟩
  show String.mk (cleanTitle (titleVenue (pyStrip ((wfBlock A d1 d2 d3 d4 R).drop
      (A.length + (8 + countWs R))))).1) ≠ ""
  rw [cleanTitle_eq, hafter, hRs]
  exact String_mk_ne_empty (titleVenue_fst_ne_nil hc0ws hc0dot)

/-- Witness for C4 at the concrete block "Doe. 2020. T. In X.". -/
theorem wellformed_recovers_year_and_title_witness :
    ∃ p, parse_reference (String.mk (wfBlock ("Doe".data) '2' '0' '2' '0' ("T. In X.".data)))
        = some p ∧
      p.year = fourDigitVal '2' '0' '2' '0' ∧ p.title ≠ "" :=
  wellformed_recovers_year_and_title ("Doe".data) ("T. In X.".data) '2' '0' '2' '0'
    (by decide) (by decide) (by decide) (by decide) (by decide)

/-- C3: a `ParsedReference` is produced for a block iff the trimmed block text
is non-empty and contains the year-delimiter pattern; otherwise no record at
all is produced (the result is `none`, never a partial record). -/
theorem parse_some_iff_year_pattern (b : String) :
    (∃ p, parse_reference b = some p) ↔
      (pyStrip b.data ≠ [] ∧ (searchYear (pyStrip b.data)).isSome = true) := by
  simp only [parse_reference, parseRef]
  constructor
  · rintro ⟨p, hp⟩
    by_cases h1 : pyStrip b.data = []
    · rw [if_pos h1] at hp
      exact absurd hp (by simp)
    · refine ⟨h1, ?_⟩
      rw [if_neg h1] at hp
      cases h2 : searchYear (pyStrip b.data) with
      | none => rw [h2] at hp; exact absurd hp (by simp)
      | some r => simp [h2]
  · rintro ⟨h1, h2⟩
    rw [if_neg h1]
    cases h3 : searchYear (pyStrip b.data) with
    | none => rw [h3] at h2; simp at h2
    | some r =>
      exact ⟨_, rfl⟩

/-- C5: for every successfully parsed block, the first-author last-name field
equals the derivation from the stored authors text: segment before the first
comma or standalone "and" (`authorSegmentAux`), trimmed, tokenized on
whitespace, last token with trailing periods/commas stripped, with the
"Unknown" fallback (`lastNameOf`). -/
theorem firstAuthorLastName_derived (b : String) (p : ParsedReference)
    (h : parse_reference b = some p) :
    p.firstAuthorLastName
      = String.mk (lastNameOf (pyStrip (authorSegmentAux p.authorsText.data))) := by
  simp only [parse_reference, parseRef] at h
  split at h
  · exact absurd h (by simp)
  · split at h
    · exact absurd h (by simp)
    · rename_i slen hsl
      cases h
      rfl

/-- Witness for C5: the Scenario-2 block yields last name "Lastname". -/
theorem firstAuthorLastName_derived_witness :
    (parse_reference "A. B. Lastname. 1999. Some Title." = some
      ⟨"Lastname", 1999, "A. B. Lastname", "Some Title.", ""⟩) ∧
    ParsedReference.firstAuthorLastName
        ⟨"Lastname", 1999, "A. B. Lastname", "Some Title.", ""⟩
      = String.mk (lastNameOf (pyStrip (authorSegmentAux ("A. B. Lastname").data))) ∧
    ("Lastname" : String)
      = String.mk (lastNameOf (pyStrip (authorSegmentAux ("A. B. Lastname").data))) :=
  ⟨by decide,
    firstAuthorLastName_derived "A. B. Lastname. 1999. Some Title."
      ⟨"Lastname", 1999, "A. B. Lastname", "Some Title.", ""⟩ (by decide),
    by decide⟩

/-- C9: the embedded `parse_reference` is total and all-or-nothing by
construction (`Option ParsedReference`), and whenever it returns a record the
year field is the integer value of the four matched digit characters, hence
at most 9999 (the `int` conversion cannot fail). -/
theorem parse_year_bounded (b : String) (p : ParsedReference)
    (h : parse_reference b = some p) : p.year ≤ 9999 := by
  simp only [parse_reference, parseRef] at h
  split at h
  · exact absurd h (by simp)
  · split at h
    · exact absurd h (by simp)
    · rename_i slen hsl
      cases h
      exact searchYear_year_le hsl

/-- Witness for C9 at a concrete block. -/
theorem parse_year_bounded_witness :
    ∃ p, parse_reference "Adams. 2019. On Sorting." = some p ∧ p.year ≤ 9999 :=
  ⟨⟨"Adams", 2019, "Adams", "On Sorting.", ""⟩, by decide,
    parse_year_bounded "Adams. 2019. On Sorting."
      ⟨"Adams", 2019, "Adams", "On Sorting.", ""⟩ (by decide)⟩

/-- C1 counterexample: for the block "Doe. 2020. Title.." the parsed title is
"Title.." (still ending in two periods), not "Title." as the claim's
exactly-one-period-stripped reading predicts; in particular the output title
can end with ".". -/
theorem title_trailing_periods_counterexample :
    (parse_reference "Doe. 2020. Title..").map ParsedReference.title = some "Title.." ∧
    ¬ (parse_reference "Doe. 2020. Title..").map ParsedReference.title = some "Title." := by
  decide

/-- C1 amended: the clean-up of lines 72-73 only strips trailing periods when
the title does not end with a period, so it never changes the title; a title
"Title.." at the end of the block is returned unchanged as "Title..". -/
theorem title_cleanup_is_noop :
    (∀ t, cleanTitle t = t) ∧
    (parse_reference "Smith. 2020. Title..").map ParsedReference.title = some "Title.." :=
  ⟨cleanTitle_eq, by decide⟩

/-- C2: evaluating the parser at the Scenario-1 block. The venue field is
"In Proceedings of Foo." — the slice `after_year[in_match.start()+1:]` skips
the period that precedes "In", so the venue does not start with ". In". -/
theorem scenario1_parse_eval :
    parse_reference "Jane Doe and John Smith. 2020. A Study of Things. In Proceedings of Foo."
      = some ⟨"Doe", 2020, "Jane Doe and John Smith", "A Study of Things",
              "In Proceedings of Foo."⟩ := by
  decide

/-! ### The main loop: warnings and skipping -/

lemma processRefs_append (xs ys : List String) :
    processRefs (xs ++ ys)
      = ((processRefs xs).1 ++ (processRefs ys).1,
         (processRefs xs).2 ++ (processRefs ys).2) := by
  induction xs with
  | nil => simp [processRefs]
  | cons b rest ih =>
    simp only [List.cons_append, processRefs, List.append_eq]
    rw [ih]
    cases (parse_reference_log b).1 with
    | none => simp
    | some p => simp

/-- C7: a block that is non-empty after trimming but has no year-delimiter
pattern yields no entry and exactly one warning carrying the first 100
characters of the trimmed text, and the surrounding run continues: the other
blocks' entries and warnings are unaffected. -/
theorem no_year_block_single_warning (b : String)
    (h1 : pyStrip b.data ≠ []) (h2 : searchYear (pyStrip b.data) = none) :
    parse_reference_log b = (none, [warnNoYear (pyStrip b.data)]) ∧
    ∀ bs1 bs2,
      (processRefs (bs1 ++ b :: bs2)).1 = (processRefs bs1).1 ++ (processRefs bs2).1 ∧
      (processRefs (bs1 ++ b :: bs2)).2
        = (processRefs bs1).2 ++ warnNoYear (pyStrip b.data) :: (processRefs bs2).2 := by
  have hlog : parse_reference_log b = (none, [warnNoYear (pyStrip b.data)]) := by
    simp only [parse_reference_log, parseRefLog]
    rw [if_neg h1, h2]
  refine ⟨hlog, ?_⟩
  intro bs1 bs2
  have hsingle : processRefs (b :: bs2)
      = ((processRefs bs2).1, warnNoYear (pyStrip b.data) :: (processRefs bs2).2) := by
    simp only [processRefs]
    rw [hlog]
    simp
  rw [processRefs_append bs1 (b :: bs2), hsingle]
  exact ⟨rfl, rfl⟩

/-- Witness for C7: the block "No year here" produces no entry and exactly
this one warning. -/
theorem no_year_block_single_warning_witness :
    parse_reference_log "No year here"
      = (none, ["Warning: Could not find year in: No year here..."]) := by
  have h := (no_year_block_single_warning "No year here" (by decide) (by decide)).1
  rw [h]
  decide

/-- C8: a block that is empty or whitespace-only yields no entry and no
warning, and the run behaves exactly as if the block were absent. -/
theorem empty_block_no_warning (b : String) (h : pyStrip b.data = []) :
    parse_reference_log b = (none, []) ∧
    ∀ bs1 bs2, processRefs (bs1 ++ b :: bs2) = processRefs (bs1 ++ bs2) := by
  have hlog : parse_reference_log b = (none, []) := by
    simp only [parse_reference_log, parseRefLog]
    rw [if_pos h]
  refine ⟨hlog, ?_⟩
  intro bs1 bs2
  have hsingle : processRefs (b :: bs2) = processRefs bs2 := by
    simp only [processRefs]
    rw [hlog]
    simp
  rw [processRefs_append bs1 (b :: bs2), hsingle, ← processRefs_append]

/-- Witness for C8: a whitespace-only block is silently skipped. -/
theorem empty_block_no_warning_witness :
    parse_reference_log "   " = (none, ([] : List String)) :=
  (empty_block_no_warning "   " (by decide)).1

/-! ### The author separator fires only on standalone "and" -/

lemma hasWsAndWs_of_append (u : List Char) (c d : Char) (v : List Char)
    (hc : pySpace c = true) (hd2 : pySpace d = true) :
    hasWsAndWs (u ++ c :: 'a' :: 'n' :: 'd' :: d :: v) = true := by
  induction u with
  | nil =>
    have hand : isAndWs ('a' :: 'n' :: 'd' :: d :: v) = true := by
      show pySpace d = true
      exact hd2
    show ((pySpace c && isAndWs ('a' :: 'n' :: 'd' :: d :: v))
        || hasWsAndWs ('a' :: 'n' :: 'd' :: d :: v)) = true
    rw [hc, hand]
    rfl
  | cons x u ih =>
    show ((pySpace x && isAndWs (u ++ c :: 'a' :: 'n' :: 'd' :: d :: v))
        || hasWsAndWs (u ++ c :: 'a' :: 'n' :: 'd' :: d :: v)) = true
    rw [ih]
    simp

lemma matchAndSep_decomp {l : List Char} (h : matchAndSep l = true) :
    ∃ u c d v, l = u ++ c :: 'a' :: 'n' :: 'd' :: d :: v
      ∧ pySpace c = true ∧ pySpace d = true := by
  unfold matchAndSep at h
  simp only [Bool.and_eq_true, decide_eq_true_eq] at h
  obtain ⟨hw, hm⟩ := h
  split at hm
  · rename_i r heq
    simp only [decide_eq_true_eq] at hm
    obtain ⟨d, v, hr, hdws⟩ : ∃ d v, r = d :: v ∧ pySpace d = true := by
      cases r with
      | nil => simp [countWs] at hm
      | cons d v =>
        refine ⟨d, v, rfl, ?_⟩
        by_contra hnd
        unfold countWs at hm
        rw [List.takeWhile_cons_of_neg (by simpa using hnd)] at hm
        simp at hm
    subst hr
    have htw : l.takeWhile pySpace ≠ [] := by
      intro he
      unfold countWs at hw
      rw [he] at hw
      simp at hw
    obtain (he | ⟨L, cl, hL⟩) := List.eq_nil_or_concat (l.takeWhile pySpace)
    · exact absurd he htw
    have hcl : pySpace cl = true := by
      have hmem : cl ∈ l.takeWhile pySpace := by
        rw [hL, List.concat_eq_append]
        simp
      exact List.mem_takeWhile_imp hmem
    refine ⟨L, cl, d, v, ?_, hcl, hdws⟩
    calc l = l.takeWhile pySpace ++ l.dropWhile pySpace :=
            (List.takeWhile_append_dropWhile _ _).symm
      _ = (L ++ [cl]) ++ 'a' :: 'n' :: 'd' :: d :: v := by
            rw [hL, List.concat_eq_append]
            rw [show l.dropWhile pySpace = 'a' :: 'n' :: 'd' :: d :: v from heq]
      _ = L ++ cl :: 'a' :: 'n' :: 'd' :: d :: v := by simp
  · exact absurd hm (by simp)

lemma matchAndSep_imp_hasWsAndWs {l : List Char} (h : matchAndSep l = true) :
    hasWsAndWs l = true := by
  obtain ⟨u, c, d, v, hl, hc, hd2⟩ := matchAndSep_decomp h
  rw [hl]
  exact hasWsAndWs_of_append u c d v hc hd2

/-- C10: if the author text contains no comma and the word "and" never occurs
with whitespace on both sides (in particular when "and" appears only inside a
longer word such as "Alexander"), then the first-author segment is the entire
author text: the split cuts nothing. -/
theorem and_inside_word_no_split (a : List Char)
    (hc : ¬ ',' ∈ a) (hand : hasWsAndWs a = false) :
    authorSegmentAux a = a := by
  induction a with
  | nil => rfl
  | cons x rest ih =>
    have hx : ¬ x = ',' := by
      intro he
      exact hc (by rw [he]; exact List.mem_cons_self _ _)
    have hm : ¬ matchAndSep (x :: rest) = true := by
      intro hmm
      rw [matchAndSep_imp_hasWsAndWs hmm] at hand
      exact absurd hand (by simp)
    have hand' : hasWsAndWs rest = false := by
      have hsum : ((pySpace x && isAndWs rest) || hasWsAndWs rest) = false := hand
      simp only [Bool.or_eq_false_iff] at hsum
      exact hsum.2
    have hc' : ¬ ',' ∈ rest := fun hm2 => hc (List.mem_cons_of_mem _ hm2)
    show (if x = ',' then [] else if matchAndSep (x :: rest) = true then []
      else x :: authorSegmentAux rest) = x :: rest
    rw [if_neg hx, if_neg hm, ih hc' hand']

/-- Witness for C10: "Alexander Smith" contains "and" only inside a word, so
the first-author segment is the whole author text. -/
theorem and_inside_word_no_split_witness :
    authorSegmentAux (("Alexander Smith").data) = ("Alexander Smith").data :=
  and_inside_word_no_split (("Alexander Smith").data) (by decide) (by decide)

/-! ### The renderer's sort: ordered and stable -/

lemma listLtCh_irrefl (x : List Char) : listLtCh x x = false := by
  induction x with
  | nil => rfl
  | cons a as ih =>
    show (if a < a then true else if a = a then listLtCh as as else false) = false
    rw [if_neg (lt_irrefl a), if_pos rfl]
    exact ih

lemma listLtCh_trans {x y z : List Char}
    (hxy : listLtCh x y = true) (hyz : listLtCh y z = true) : listLtCh x z = true := by
  induction x generalizing y z with
  | nil =>
    cases y with
    | nil => simp [listLtCh] at hxy
    | cons b bs =>
      cases z with
      | nil => simp [listLtCh] at hyz
      | cons c cs => rfl
  | cons a as ih =>
    cases y with
    | nil => simp [listLtCh] at hxy
    | cons b bs =>
      cases z with
      | nil => simp [listLtCh] at hyz
      | cons c cs =>
        have hxy' : (if a < b then true else if a = b then listLtCh as bs else false)
            = true := hxy
        have hyz' : (if b < c then true else if b = c then listLtCh bs cs else false)
            = true := hyz
        show (if a < c then true else if a = c then listLtCh as cs else false) = true
        by_cases hab : a < b
        · by_cases hbc : b < c
          · rw [if_pos (lt_trans hab hbc)]
          · rw [if_neg hbc] at hyz'
            by_cases hbc2 : b = c
            · rw [if_pos (hbc2 ▸ hab)]
            · rw [if_neg hbc2] at hyz'
              exact absurd hyz' (by simp)
        · rw [if_neg hab] at hxy'
          by_cases hab2 : a = b
          · subst hab2
            rw [if_pos rfl] at hxy'
            by_cases hbc : a < c
            · rw [if_pos hbc]
            · rw [if_neg hbc] at hyz' ⊢
              by_cases hbc2 : a = c
              · rw [if_pos hbc2] at hyz' ⊢
                exact ih hxy' hyz'
              · rw [if_neg hbc2] at hyz'
                exact absurd hyz' (by simp)
          · rw [if_neg hab2] at hxy'
            exact absurd hxy' (by simp)

lemma listLtCh_tri (x y : List Char) :
    listLtCh x y = true ∨ x = y ∨ listLtCh y x = true := by
  induction x generalizing y with
  | nil =>
    cases y with
    | nil => exact Or.inr (Or.inl rfl)
    | cons b bs => exact Or.inl rfl
  | cons a as ih =>
    cases y with
    | nil => exact Or.inr (Or.inr rfl)
    | cons b bs =>
      rcases lt_trichotomy a b with h | h | h
      · refine Or.inl ?_
        show (if a < b then true else if a = b then listLtCh as bs else false) = true
        rw [if_pos h]
      · subst h
        rcases ih bs with h2 | h2 | h2
        · refine Or.inl ?_
          show (if a < a then true else if a = a then listLtCh as bs else false) = true
          rw [if_neg (lt_irrefl a), if_pos rfl]
          exact h2
        · exact Or.inr (Or.inl (by rw [h2]))
        · refine Or.inr (Or.inr ?_)
          show (if a < a then true else if a = a then listLtCh bs as else false) = true
          rw [if_neg (lt_irrefl a), if_pos rfl]
          exact h2
      · refine Or.inr (Or.inr ?_)
        show (if b < a then true else if b = a then listLtCh bs as else false) = true
        rw [if_pos h]

lemma refLe_of_eq_key {a b : ParsedReference} (hn : lowerName a = lowerName b)
    (hy : a.year ≤ b.year) : refLe a b = true := by
  unfold refLe
  rw [if_neg (by rw [hn, listLtCh_irrefl]; simp), if_pos hn]
  exact decide_eq_true hy

lemma refLe_trans (a b c : ParsedReference) :
    refLe a b → refLe b c → refLe a c := by
  intro hab hbc
  unfold refLe at hab hbc ⊢
  by_cases h1 : listLtCh (lowerName a) (lowerName b) = true
  · by_cases h2 : listLtCh (lowerName b) (lowerName c) = true
    · rw [if_pos (listLtCh_trans h1 h2)]
    · rw [if_neg h2] at hbc
      by_cases h3 : lowerName b = lowerName c
      · rw [if_pos (show listLtCh (lowerName a) (lowerName c) = true by
          rw [← h3]; exact h1)]
      · rw [if_neg h3] at hbc
        exact absurd hbc (by simp)
  · rw [if_neg h1] at hab
    by_cases h4 : lowerName a = lowerName b
    · rw [if_pos h4] at hab
      by_cases h2 : listLtCh (lowerName b) (lowerName c) = true
      · rw [if_pos (show listLtCh (lowerName a) (lowerName c) = true by
          rw [h4]; exact h2)]
      · rw [if_neg h2] at hbc
        by_cases h3 : lowerName b = lowerName c
        · rw [if_pos h3] at hbc
          rw [if_neg (show ¬ listLtCh (lowerName a) (lowerName c) = true by
              rw [h4, h3, listLtCh_irrefl]; simp),
            if_pos (h4.trans h3)]
          simp only [decide_eq_true_eq] at hab hbc ⊢
          omega
        · rw [if_neg h3] at hbc
          exact absurd hbc (by simp)
    · rw [if_neg h4] at hab
      exact absurd hab (by simp)

lemma refLe_total (a b : ParsedReference) : refLe a b || refLe b a := by
  unfold refLe
  rcases listLtCh_tri (lowerName a) (lowerName b) with h | h | h
  · rw [if_pos h]
    simp
  · rw [if_neg (by rw [h, listLtCh_irrefl]; simp), if_pos h,
      if_neg (by rw [← h, listLtCh_irrefl]; simp), if_pos h.symm]
    rcases Nat.le_total a.year b.year with hy | hy
    · rw [decide_eq_true hy]
      simp
    · rw [decide_eq_true hy]
      simp
  · rw [if_pos h]
    simp

/-- C6: the renderer sorts entries ascending by the composite key
(lower-cased last name, year) — the result is pairwise `refLe`-ordered and a
permutation of the input — and the sort is stable: two entries with equal
keys appearing in order in the input still appear in that order in the
output. -/
theorem sort_sorted_and_stable (l : List ParsedReference) :
    (sortRefs l).Pairwise (fun a b => refLe a b = true) ∧
    (sortRefs l).Perm l ∧
    ∀ a b : ParsedReference, lowerName a = lowerName b → a.year = b.year →
      [a, b].Sublist l → [a, b].Sublist (sortRefs l) := by
  unfold sortRefs
  refine ⟨?_, List.mergeSort_perm l refLe, ?_⟩
  · exact List.sorted_mergeSort refLe_trans refLe_total l
  · intro a b hn hy hs
    have hpw : List.Pairwise (fun x y => refLe x y = true) [a, b] := by
      refine List.pairwise_cons.mpr ⟨?_, ?_⟩
      · intro y hy2
        rw [List.mem_singleton] at hy2
        subst hy2
        exact refLe_of_eq_key hn (le_of_eq hy)
      · exact List.pairwise_singleton _ _
    exact List.sublist_mergeSort refLe_trans refLe_total hpw hs

/-- Witness for C6: two equal-key entries stay in input order after sorting. -/
theorem sort_sorted_and_stable_witness :
    [(⟨"Adams", 2019, "A. Adams", "T2", ""⟩ : ParsedReference),
     ⟨"Adams", 2019, "B. Adams", "T3", ""⟩].Sublist
      (sortRefs [⟨"Adams", 2019, "A. Adams", "T2", ""⟩,
                 ⟨"Smith", 2021, "S. Smith", "T1", ""⟩,
                 ⟨"Adams", 2019, "B. Adams", "T3", ""⟩]) :=
  (sort_sorted_and_stable
      [⟨"Adams", 2019, "A. Adams", "T2", ""⟩,
       ⟨"Smith", 2021, "S. Smith", "T1", ""⟩,
       ⟨"Adams", 2019, "B. Adams", "T3", ""⟩]).2.2 _ _ rfl rfl
    (List.Sublist.cons₂ _ (List.Sublist.cons _ (List.Sublist.refl _)))

end BibRefs
